import Mathlib

/-!
Verification of the appleseed curve-tree (BVH) construction subsystem.

The sources provide `collect_curves`, `CurveTree::CurveTree` and
`CurveTree::build_bvh` (renderer/kernel/intersection/curvetree.cpp).  The
foundation-library collaborators they call (`bvh::SAHPartitioner`,
`bvh::Builder`, `small_item_reorder`, `ParamArray::get_optional`, the scene
accessors and the Bezier-curve bounding box routine) are not part of the
provided sources; those are modelled from the specification text, and each
such definition is marked `Modelled from the spec:` in its doc comment.

Geometry is embedded over exact integer coordinates instead of machine
floating point; the claims under study are structural (partition of index
ranges, bounding box unions, determinism, pairing under reordering), not
about rounding.  The two halvings of the source (growing a box by half a
width, sorting by box centers) are absorbed exactly: boxes live in a
coordinate frame scaled by two, and the sort key is twice the center,
which orders identically.
-/

/-! ## Basic geometry -/

/-- A point or vector in 3D space, with exact integer coordinates. -/
structure Vec3 where
  x : ℤ
  y : ℤ
  z : ℤ
deriving DecidableEq

/-- Minimum of two scalars, kept as an explicit comparison so that every
geometric operation evaluates by plain reduction. -/
def qmin (a b : ℤ) : ℤ := if a ≤ b then a else b

/-- Maximum of two scalars, kept as an explicit comparison. -/
def qmax (a b : ℤ) : ℤ := if a ≤ b then b else a

/-- Componentwise minimum of two vectors. -/
def Vec3.cmin (a b : Vec3) : Vec3 :=
  ⟨qmin a.x b.x, qmin a.y b.y, qmin a.z b.z⟩

/-- Componentwise maximum of two vectors. -/
def Vec3.cmax (a b : Vec3) : Vec3 :=
  ⟨qmax a.x b.x, qmax a.y b.y, qmax a.z b.z⟩

/-- Coordinate of a vector along axis 0, 1 or 2 (x, y, z). -/
def Vec3.axisVal (v : Vec3) (a : ℕ) : ℤ :=
  if a = 0 then v.x else if a = 1 then v.y else v.z

/-- An axis-aligned bounding box given by its min and max corners. -/
structure AABB where
  lo : Vec3
  hi : Vec3
deriving DecidableEq

/-- The union of two bounding boxes: componentwise min of the min corners
and componentwise max of the max corners. -/
def AABB.union (a b : AABB) : AABB :=
  ⟨Vec3.cmin a.lo b.lo, Vec3.cmax a.hi b.hi⟩

/-- The box used for an empty range of items (all corners at the origin). -/
def AABB.emptyBox : AABB :=
  ⟨⟨0, 0, 0⟩, ⟨0, 0, 0⟩⟩

/-- Extent of a bounding box along a given axis. -/
def AABB.extent (bb : AABB) (a : ℕ) : ℤ :=
  bb.hi.axisVal a - bb.lo.axisVal a

/-- Surface-area measure of a bounding box, used by the SAH cost model:
twice the sum of the pairwise products of the extents. -/
def AABB.surfaceArea (bb : AABB) : ℤ :=
  2 * (bb.extent 0 * bb.extent 1 + bb.extent 0 * bb.extent 2 + bb.extent 1 * bb.extent 2)

/-- Union of a list of boxes; the empty list yields `AABB.emptyBox`. -/
def unionList : List AABB → AABB
  | [] => AABB.emptyBox
  | bb :: rest => rest.foldl AABB.union bb

/-! ## Curves, scene objects and the geometry collector -/

/-- Modelled from the spec: a parametric (Bezier-like) curve with control
points and a parallel per-control-point width list.  The source type
`BezierCurve3d` lives in the foundation library, which is not among the
provided sources. -/
structure BezierCurve3 where
  ctrl : List Vec3
  widths : List ℤ
deriving DecidableEq

instance : Inhabited BezierCurve3 := ⟨⟨[], []⟩⟩

/-- Modelled from the spec: an object-instance transform
(`Transformd::MatrixType`, a local-to-parent affine map applied to control
points); the foundation matrix type is not among the provided sources, so
the transform is embedded as the point map it denotes. -/
structure Transformd where
  app : Vec3 → Vec3

/-- The identity transform. -/
def idTransform : Transformd := ⟨fun v => v⟩

/-- Modelled from the spec: the bounding box of a curve, a tight axis-aligned
box containing every control point grown by half the point's width (the
source routine `BezierCurveBase::get_bbox` is not among the provided
sources); a curve with no control points yields a zero-volume box.  Boxes
are written in a coordinate frame scaled by two, so the half-width growth
`x - w/2 .. x + w/2` becomes the exact integer form `2x - w .. 2x + w`. -/
def BezierCurve3.get_bbox (c : BezierCurve3) : AABB :=
  unionList ((c.ctrl.zip c.widths).map (fun pw =>
    AABB.mk
      ⟨2 * pw.1.x - pw.2, 2 * pw.1.y - pw.2, 2 * pw.1.z - pw.2⟩
      ⟨2 * pw.1.x + pw.2, 2 * pw.1.y + pw.2, 2 * pw.1.z + pw.2⟩))

/-- The curve obtained by applying an instance transform to every control
point, as done by the `BezierCurve3d(curve, transform)` constructor call in
`collect_curves`. -/
def transformedCurve (t : Transformd) (c : BezierCurve3) : BezierCurve3 :=
  { ctrl := c.ctrl.map t.app, widths := c.widths }

/-- Modelled from the spec: a geometric object of the scene, exposing its
model-identifier string (`Object::get_model`) and, when curve-bearing, its
curves (`CurveObject::get_curve_count` / `get_curve`). -/
structure SceneObject where
  model : String
  curves : List BezierCurve3

/-- Modelled from the spec: an object instance, referencing a geometric
object and carrying a local-to-parent transform. -/
structure ObjectInstance where
  object : SceneObject
  transform : Transformd

/-- Modelled from the spec: an assembly, a collection of object instances
enumerated by index. -/
structure Assembly where
  object_instances : List ObjectInstance

/-- The model tag returned by `CurveObjectFactory::get_model()`, against
which `collect_curves` compares each object's model string. -/
def curveObjectModel : String := "curve_object"

/-- A curve key: provenance of a collected curve (object instance index,
curve index within the object, material index). -/
structure CurveKey where
  object_instance_index : ℕ
  curve_index : ℕ
  material_index : ℕ
deriving DecidableEq

instance : Inhabited CurveKey := ⟨⟨0, 0, 0⟩⟩

/-- The loop body of `collect_curves`, recursing over the enumerated
object-instance list: instances whose object model differs from the curve
object model are skipped (`if (strcmp(object.get_model(), ...)) continue;`);
for a qualifying instance, one transformed curve and one key `(i, j, 0)` are
appended per curve, in curve-index order. -/
def collect_go : List (ℕ × ObjectInstance) → List BezierCurve3 × List CurveKey
  | [] => ([], [])
  | (i, inst) :: rest =>
      let tail := collect_go rest
      if inst.object.model = curveObjectModel then
        (inst.object.curves.map (transformedCurve inst.transform) ++ tail.1,
         (List.range inst.object.curves.length).map (fun j => CurveKey.mk i j 0) ++ tail.2)
      else tail

/-- Embedding of `collect_curves` (curvetree.cpp): walk the assembly's
object instances in index order and gather transformed curves and keys. -/
def collect_curves (assembly : Assembly) : List BezierCurve3 × List CurveKey :=
  collect_go assembly.object_instances.enum

/-- Follows the specification's words, for comparison with `collect_curves`:
only instances whose object model tag identifies a curve object are
processed; each curve of a qualifying object contributes exactly one
primitive and one key, in iteration order (instance index, then curve
index). -/
def collect_curves_spec (assembly : Assembly) : List BezierCurve3 × List CurveKey :=
  ((assembly.object_instances.enum.filter
      (fun p => p.2.object.model = curveObjectModel)).flatMap
    (fun p => p.2.object.curves.map (transformedCurve p.2.transform)),
   (assembly.object_instances.enum.filter
      (fun p => p.2.object.model = curveObjectModel)).flatMap
    (fun p => (List.range p.2.object.curves.length).map (fun j => CurveKey.mk p.1 j 0)))

theorem collect_go_eq_spec (l : List (ℕ × ObjectInstance)) :
    collect_go l =
      ((l.filter (fun p => p.2.object.model = curveObjectModel)).flatMap
        (fun p => p.2.object.curves.map (transformedCurve p.2.transform)),
       (l.filter (fun p => p.2.object.model = curveObjectModel)).flatMap
        (fun p => (List.range p.2.object.curves.length).map (fun j => CurveKey.mk p.1 j 0))) := by
  induction l with
  | nil => rfl
  | cons hd tl ih =>
      obtain ⟨i, inst⟩ := hd
      by_cases h : inst.object.model = curveObjectModel
      · simp [collect_go, h, ih, List.filter_cons]
      · simp [collect_go, h, ih, List.filter_cons]

theorem collect_go_lengths (l : List (ℕ × ObjectInstance)) :
    (collect_go l).1.length = (collect_go l).2.length := by
  induction l with
  | nil => rfl
  | cons hd tl ih =>
      obtain ⟨i, inst⟩ := hd
      by_cases h : inst.object.model = curveObjectModel
      · simp [collect_go, h, ih]
      · simp [collect_go, h, ih]

theorem collect_go_material (l : List (ℕ × ObjectInstance)) (k : CurveKey)
    (hk : k ∈ (collect_go l).2) : k.material_index = 0 := by
  induction l with
  | nil => simp [collect_go] at hk
  | cons hd tl ih =>
      obtain ⟨i, inst⟩ := hd
      by_cases h : inst.object.model = curveObjectModel
      · simp only [collect_go, h, if_pos] at hk
        rcases List.mem_append.mp hk with hin | hin
        · rcases List.mem_map.mp hin with ⟨j, _, rfl⟩
          rfl
        · exact ih hin
      · simp only [collect_go, h, if_neg, not_false_iff] at hk
        exact ih hk

/-! ## The SAH partitioner

Modelled from the spec: `bvh::SAHPartitioner` (foundation library) is not
among the provided sources.  Per the spec it holds the per-item bounding
boxes and three cost constants (max leaf size, interior-node traversal cost,
item intersection cost), answers bounding-box queries over contiguous index
ranges, proposes a least-cost split along the dominant spatial axis under
the surface-area heuristic, decides when a leaf is cheaper than any split,
and maintains the master item ordering as a side effect of partitioning,
with deterministic tie-breaks (lowest axis index, then lowest item index,
then lowest pivot). -/

/-- State of the SAH partitioner: read-only item bounding boxes, the three
configured cost constants, and the mutable master item ordering. -/
structure SAHPartitioner where
  bboxes : List AABB
  max_leaf_size : ℕ
  interior_node_traversal_cost : ℤ
  item_intersection_cost : ℤ
  ordering : List ℕ

/-- The freshly constructed partitioner: the master ordering starts as the
identity ordering of the items. -/
def initSAHPartitioner (bbs : List AABB) (mls : ℕ) (tc ic : ℤ) : SAHPartitioner :=
  ⟨bbs, mls, tc, ic, List.range bbs.length⟩

/-- Bounding box of the item with the given original index. -/
def SAHPartitioner.itemBox (P : SAHPartitioner) (i : ℕ) : AABB :=
  P.bboxes.getD i AABB.emptyBox

/-- The boxes of the items currently stored at ordering positions
`[b, e)`. -/
def SAHPartitioner.rangeBoxes (P : SAHPartitioner) (b e : ℕ) : List AABB :=
  ((P.ordering.drop b).take (e - b)).map P.itemBox

/-- Bounding box of the contiguous ordering range `[b, e)` (the
`compute_bbox` query of the partitioner). -/
def SAHPartitioner.computeBBox (P : SAHPartitioner) (b e : ℕ) : AABB :=
  unionList (P.rangeBoxes b e)

/-- The dominant spatial axis of a box: the axis of largest extent, ties
resolved towards the lowest axis index. -/
def dominantAxis (bb : AABB) : ℕ :=
  if bb.extent 1 ≤ bb.extent 0 ∧ bb.extent 2 ≤ bb.extent 0 then 0
  else if bb.extent 2 ≤ bb.extent 1 then 1
  else 2

/-- Twice the center of an item's bounding box along an axis, the sort key
for ordering items along the dominant axis (the factor of two does not
change the ordering and keeps the key an exact integer). -/
def SAHPartitioner.itemCenter (P : SAHPartitioner) (axis i : ℕ) : ℤ :=
  (P.itemBox i).lo.axisVal axis + (P.itemBox i).hi.axisVal axis

/-- Insertion step of the deterministic sort: an item goes before the first
item of strictly larger key, ties resolved towards the lowest item index. -/
def insertByKey (key : ℕ → ℤ) (i : ℕ) : List ℕ → List ℕ
  | [] => [i]
  | j :: rest =>
      if key i < key j ∨ (key i = key j ∧ i ≤ j) then i :: j :: rest
      else j :: insertByKey key i rest

/-- Deterministic insertion sort by a rational key with index tie-break. -/
def sortByKey (key : ℕ → ℤ) : List ℕ → List ℕ
  | [] => []
  | i :: rest => insertByKey key i (sortByKey key rest)

/-- Sort the ordering slice `[b, e)` by item center along the dominant axis
of the range's bounding box; positions outside the slice are untouched. -/
def SAHPartitioner.sortRange (P : SAHPartitioner) (b e : ℕ) : SAHPartitioner :=
  let axis := dominantAxis (P.computeBBox b e)
  { P with ordering :=
      P.ordering.take b
        ++ sortByKey (P.itemCenter axis) ((P.ordering.drop b).take (e - b))
        ++ P.ordering.drop e }

/-- Surface-area-weighted child cost of splitting `[b, e)` at pivot `p`:
the sum over both children of the child's surface area times its item
count.  The candidate pivot minimizing this measure minimizes the SAH
split cost. -/
def SAHPartitioner.splitMeasure (P : SAHPartitioner) (b e p : ℕ) : ℤ :=
  (P.computeBBox b p).surfaceArea * ((p - b : ℕ) : ℤ)
    + (P.computeBBox p e).surfaceArea * ((e - p : ℕ) : ℤ)

/-- The least-cost candidate pivot of the range `[b, e)`: every proper split
position is a candidate, the measure is minimized, ties resolved towards
the lowest pivot; `none` when the range has no proper split position. -/
def SAHPartitioner.bestPivot (P : SAHPartitioner) (b e : ℕ) : Option ℕ :=
  match List.range' (b + 1) (e - b - 1) with
  | [] => none
  | c :: cs =>
      some (cs.foldl (fun x y => if P.splitMeasure b e y < P.splitMeasure b e x then y else x) c)

/-- Whether terminating `[b, e)` as a leaf is preferred over splitting at
`p`: the range fits the configured maximum leaf size and the leaf cost
(intersection cost times item count) does not exceed the SAH split cost
(traversal cost plus the probability-weighted child intersection costs);
the comparison is multiplied through by the range's surface area so that it
stays within the rationals. -/
def SAHPartitioner.leafPreferred (P : SAHPartitioner) (b e p : ℕ) : Prop :=
  e - b ≤ P.max_leaf_size ∧
    ((e - b : ℕ) : ℤ) * P.item_intersection_cost * (P.computeBBox b e).surfaceArea ≤
      P.interior_node_traversal_cost * (P.computeBBox b e).surfaceArea
        + P.splitMeasure b e p * P.item_intersection_cost

instance (P : SAHPartitioner) (b e p : ℕ) : Decidable (P.leafPreferred b e p) := by
  unfold SAHPartitioner.leafPreferred
  infer_instance

/-- The partition query: sort the range along the dominant axis, then either
report that a leaf is preferred (`none`) or return the least-cost split
pivot, together with the updated partitioner state. -/
def SAHPartitioner.partition (P : SAHPartitioner) (b e : ℕ) : Option ℕ × SAHPartitioner :=
  let P2 := P.sortRange b e
  match P2.bestPivot b e with
  | none => (none, P2)
  | some p => if P2.leafPreferred b e p then (none, P2) else (some p, P2)

/-! ## The tree builder

Modelled from the spec: `bvh::Builder` (foundation library) is not among the
provided sources.  Per the spec the builder consumes the partitioner to
build the hierarchy top-down: a range either becomes a leaf (when the range
size is within the maximum leaf size, when it cannot be split further, or
when the partitioner signals that a leaf is preferred), or it is split at
the partitioner's pivot, both sub-ranges are built recursively, and an
interior node with the two children and their combined bounding box is
emitted.  Empty input yields a single empty leaf root.  The recursion is
depth-bounded by an explicit fuel argument, matching the spec's requirement
that recursion depth be explicitly bounded; the top-level entry point
supplies enough fuel for the whole build, since every split strictly
shrinks the range. -/

/-- The in-memory node hierarchy produced by the builder: a leaf holds its
bounding box and a contiguous item index range (start and count); an
interior node holds its bounding box and its two children. -/
inductive BTree where
  | leaf (bbox : AABB) (first : ℕ) (count : ℕ)
  | interior (bbox : AABB) (l : BTree) (r : BTree)
deriving DecidableEq

/-- Bounding box stored at the root node of a hierarchy. -/
def BTree.bbox : BTree → AABB
  | .leaf bb _ _ => bb
  | .interior bb _ _ => bb

/-- Number of nodes of a hierarchy. -/
def BTree.size : BTree → ℕ
  | .leaf _ _ _ => 1
  | .interior _ l r => 1 + l.size + r.size

/-- The `(first, count)` ranges of the leaves, in traversal order. -/
def BTree.leafRecords : BTree → List (ℕ × ℕ)
  | .leaf _ f c => [(f, c)]
  | .interior _ l r => l.leafRecords ++ r.leafRecords

/-- The item indices covered by the leaves, in traversal order. -/
def BTree.leafIndices : BTree → List ℕ
  | .leaf _ f c => List.range' f c
  | .interior _ l r => l.leafIndices ++ r.leafIndices

/-- One recursion frame of the builder over the ordering range `[b, e)`,
with explicit fuel; returns the subtree and the updated partitioner
state. -/
def buildRange (P : SAHPartitioner) (b e : ℕ) : ℕ → BTree × SAHPartitioner
  | 0 => (.leaf (P.computeBBox b e) b (e - b), P)
  | fuel + 1 =>
      if e - b ≤ max P.max_leaf_size 1 then
        (.leaf (P.computeBBox b e) b (e - b), P)
      else
        match P.partition b e with
        | (none, P2) => (.leaf (P2.computeBBox b e) b (e - b), P2)
        | (some p, P2) =>
            let lres := buildRange P2 b p fuel
            let rres := buildRange lres.2 p e fuel
            (.interior (AABB.union lres.1.bbox rres.1.bbox) lres.1 rres.1, rres.2)

/-! ## The flat node array

The tree owns a flat node array rooted at index zero; an interior node
stores the array indices of its two children, which are laid out after it
(left subtree first, then right subtree). -/

/-- A node of the flat array: a leaf with its bounding box and item range,
or an interior node with its bounding box and two child array indices. -/
inductive Node where
  | leaf (bbox : AABB) (first : ℕ) (count : ℕ)
  | interior (bbox : AABB) (li : ℕ) (ri : ℕ)
deriving DecidableEq

instance : Inhabited Node := ⟨Node.leaf AABB.emptyBox 0 0⟩

/-- Bounding box stored in a node. -/
def Node.bbox : Node → AABB
  | .leaf bb _ _ => bb
  | .interior bb _ _ => bb

/-- The item range of a node: the leaf's contiguous index range; empty for
interior nodes. -/
def Node.leafRange : Node → List ℕ
  | .leaf _ f c => List.range' f c
  | .interior _ _ _ => []

/-- Lay out a hierarchy as a flat node array, the subtree's root placed at
array index `s`: the left child directly follows its parent, the right
child follows the whole left subtree. -/
def flattenAux : BTree → ℕ → List Node
  | .leaf bb f c, _ => [Node.leaf bb f c]
  | .interior bb l r, s =>
      Node.interior bb (s + 1) (s + 1 + l.size)
        :: (flattenAux l (s + 1) ++ flattenAux r (s + 1 + l.size))

/-- The flat node array of a hierarchy, rooted at index zero. -/
def BTree.flatten (t : BTree) : List Node :=
  flattenAux t 0

/-- Concatenation of the item ranges of all leaf nodes of a node array, in
array order. -/
def nodesLeafIndices : List Node → List ℕ
  | [] => []
  | n :: rest => n.leafRange ++ nodesLeafIndices rest

/-! ## The reorderer, configuration access and the constructor -/

/-- Modelled from the spec: `small_item_reorder` (foundation utility, not
among the provided sources) permutes an array through temporary storage so
that final position `p` receives the item originally at index `order[p]`. -/
def small_item_reorder {α : Type} [Inhabited α] (items : List α) (order : List ℕ) : List α :=
  order.map (fun i => items.getD i default)

/-- Modelled from the spec: the default curve-tree build constants
(`CurveTreeDefaultMaxLeafSize` and friends, declared in curvetree.h which is
not among the provided sources); the spec names the three constants but not
their values, so representative concrete values are fixed here. -/
def CurveTreeDefaultMaxLeafSize : ℕ := 1

/-- Modelled from the spec: default interior-node traversal cost constant. -/
def CurveTreeDefaultInteriorNodeTraversalCost : ℤ := 1

/-- Modelled from the spec: default curve intersection cost constant. -/
def CurveTreeDefaultCurveIntersectionCost : ℤ := 1

/-- The construction parameters read by the constructor from the assembly's
`acceleration_structure` parameter block: the optional algorithm choice and
the optional motion-blur time. -/
structure BuildParams where
  algorithm : Option String
  time : Option ℚ

/-- Modelled from the spec: `ParamArray::get_optional` with an
enumerated-choice validator (foundation utility, not among the provided
sources): an absent value yields the default, a supported value is
returned, and an unsupported value for the closed-choice option fails with
a configuration error. -/
def get_optional_enum (value : Option String) (dflt : String) (allowed : List String) :
    Except Unit String :=
  match value with
  | none => Except.ok dflt
  | some s => if s ∈ allowed then Except.ok s else Except.error ()

/-- The error taxonomy of the build, per the spec: an unsupported value for
the closed-choice algorithm option, or a recognized but unimplemented
algorithm variant (the source throws `ExceptionNotImplemented` there). -/
inductive ConfigurationError where
  | unsupportedValue
  | notImplemented
deriving DecidableEq

/-- The mutable member state of a `CurveTree` object: the node array, the
curve array and the parallel curve-key array; all three start empty. -/
structure CurveTreeState where
  nodes : List Node
  curves3 : List BezierCurve3
  curve_keys : List CurveKey
deriving DecidableEq

/-- The member state of a freshly allocated `CurveTree`. -/
def emptyCurveTreeState : CurveTreeState := ⟨[], [], []⟩

/-- Embedding of `CurveTree::build_bvh`: collect the curves and keys, take
the per-curve bounding boxes, run the SAH partitioner and builder over them
with the default build constants, then reorder the curve and key arrays in
lockstep by the partitioner's final item ordering (skipped when there are
no curves).  The `params` and `time` arguments are received but not used by
the body, exactly as in the source. -/
def CurveTree_build_bvh (params : BuildParams) (assembly : Assembly) (time : ℚ) :
    CurveTreeState :=
  let collected := collect_curves assembly
  let curve_bboxes := collected.1.map BezierCurve3.get_bbox
  let P := initSAHPartitioner curve_bboxes CurveTreeDefaultMaxLeafSize
    CurveTreeDefaultInteriorNodeTraversalCost CurveTreeDefaultCurveIntersectionCost
  let built := buildRange P 0 collected.1.length collected.1.length
  if collected.1.isEmpty then
    { nodes := built.1.flatten, curves3 := collected.1, curve_keys := collected.2 }
  else
    { nodes := built.1.flatten,
      curves3 := small_item_reorder collected.1 built.2.ordering,
      curve_keys := small_item_reorder collected.2 built.2.ordering }

/-- Embedding of the `CurveTree` constructor: read the algorithm choice
(validated against the closed set of supported names, default choice the
plain BVH) and the time parameter (default one half); build with
`build_bvh` when the plain BVH algorithm is selected, otherwise fail with
the not-implemented error.  The result pairs the final member state with
the error surfaced to the caller, if any; on failure the member arrays are
left untouched (empty). -/
def CurveTree_construct (params : BuildParams) (assembly : Assembly) :
    CurveTreeState × Option ConfigurationError :=
  match get_optional_enum params.algorithm ("bvh") ["bvh", "sbvh"] with
  | Except.error _ => (emptyCurveTreeState, some ConfigurationError.unsupportedValue)
  | Except.ok algorithm =>
      if algorithm = "bvh" then
        (CurveTree_build_bvh params assembly (params.time.getD (1 / 2)), none)
      else
        (emptyCurveTreeState, some ConfigurationError.notImplemented)

/-! ## General helper lemmas -/

theorem getElem?_eq_some_getD {α : Type} (l : List α) (i : ℕ) (d : α) (h : i < l.length) :
    l[i]? = some (l.getD i d) := by
  rw [List.getD_eq_getElem?_getD, List.getElem?_eq_getElem h]
  rfl

theorem foldl_choice_mem {α : Type} (f : α → α → α) (hf : ∀ x y, f x y = x ∨ f x y = y) :
    ∀ (cs : List α) (c : α), cs.foldl f c ∈ c :: cs := by
  intro cs
  induction cs with
  | nil => intro c; simp
  | cons y ys ih =>
      intro c
      have h1 := ih (f c y)
      rw [List.foldl_cons]
      rcases hf c y with h | h <;> rw [h] at h1 ⊢ <;>
        simp only [List.mem_cons] at h1 ⊢ <;> tauto

theorem range'_glue (b p e : ℕ) (h1 : b ≤ p) (h2 : p ≤ e) :
    List.range' b (p - b) ++ List.range' p (e - p) = List.range' b (e - b) := by
  have hp : b + 1 * (p - b) = p := by omega
  have hr := List.range'_append b (p - b) (e - p) 1
  rw [hp] at hr
  rw [hr]
  congr 1
  omega

/-! ## Partitioner lemmas -/

theorem sortRange_max_leaf_size (P : SAHPartitioner) (b e : ℕ) :
    (P.sortRange b e).max_leaf_size = P.max_leaf_size := rfl

theorem partition_snd (P : SAHPartitioner) (b e : ℕ) :
    (P.partition b e).2 = P.sortRange b e := by
  unfold SAHPartitioner.partition
  cases h : (P.sortRange b e).bestPivot b e with
  | none => simp [h]
  | some p =>
      simp only [h]
      split <;> rfl

theorem partition_snd_max_leaf_size (P : SAHPartitioner) (b e : ℕ) :
    (P.partition b e).2.max_leaf_size = P.max_leaf_size := by
  rw [partition_snd]
  rfl

theorem bestPivot_mem (P : SAHPartitioner) (b e p : ℕ) (h : P.bestPivot b e = some p) :
    p ∈ List.range' (b + 1) (e - b - 1) := by
  unfold SAHPartitioner.bestPivot at h
  cases hr : List.range' (b + 1) (e - b - 1) with
  | nil => rw [hr] at h; simp at h
  | cons c cs =>
      rw [hr] at h
      simp only [Option.some.injEq] at h
      have hmem := foldl_choice_mem
        (fun x y => if P.splitMeasure b e y < P.splitMeasure b e x then y else x)
        (by
          intro x y
          dsimp only
          split
          · exact Or.inr rfl
          · exact Or.inl rfl) cs c
      rw [h] at hmem
      exact hmem

theorem partition_some_bounds (P : SAHPartitioner) (b e p : ℕ) (P2 : SAHPartitioner)
    (h : P.partition b e = (some p, P2)) : b < p ∧ p < e := by
  simp only [SAHPartitioner.partition] at h
  cases hbp : (P.sortRange b e).bestPivot b e with
  | none => simp only [hbp] at h; simp at h
  | some q =>
      simp only [hbp] at h
      split at h
      · simp at h
      · rw [Prod.mk.injEq] at h
        obtain ⟨hq, _⟩ := h
        rw [Option.some.injEq] at hq
        subst hq
        have hm := bestPivot_mem _ b e q hbp
        have hb := List.mem_range'_1.mp hm
        omega

theorem partition_none_bound (P : SAHPartitioner) (b e : ℕ) (P2 : SAHPartitioner)
    (h2 : 2 ≤ e - b) (h : P.partition b e = (none, P2)) :
    e - b ≤ P.max_leaf_size := by
  simp only [SAHPartitioner.partition] at h
  cases hbp : (P.sortRange b e).bestPivot b e with
  | none =>
      exfalso
      unfold SAHPartitioner.bestPivot at hbp
      cases hr : List.range' (b + 1) (e - b - 1) with
      | nil =>
          have := List.range'_eq_nil.mp hr
          omega
      | cons c cs => rw [hr] at hbp; simp at hbp
  | some q =>
      simp only [hbp] at h
      split at h
      next hlp =>
        have h1 := hlp.1
        rwa [sortRange_max_leaf_size] at h1
      next hlp =>
        simp at h

/-! ## Builder lemmas -/

theorem buildRange_snd_max_leaf_size :
    ∀ (fuel : ℕ) (P : SAHPartitioner) (b e : ℕ),
      ((buildRange P b e fuel).2).max_leaf_size = P.max_leaf_size := by
  intro fuel
  induction fuel with
  | zero => intro P b e; rfl
  | succ n ih =>
      intro P b e
      rw [buildRange]
      by_cases hle : e - b ≤ max P.max_leaf_size 1
      · rw [if_pos hle]
      · rw [if_neg hle]
        rcases hpart : P.partition b e with ⟨op, P2⟩
        have hP2 : P2.max_leaf_size = P.max_leaf_size := by
          have hx := partition_snd_max_leaf_size P b e
          rw [hpart] at hx
          exact hx
        cases op with
        | none => simpa only [hpart] using hP2
        | some p =>
            simp only [hpart]
            rw [ih, ih, hP2]

theorem buildRange_leafIndices :
    ∀ (fuel : ℕ) (P : SAHPartitioner) (b e : ℕ), b ≤ e →
      ((buildRange P b e fuel).1).leafIndices = List.range' b (e - b) := by
  intro fuel
  induction fuel with
  | zero => intro P b e _; rfl
  | succ n ih =>
      intro P b e hbe
      rw [buildRange]
      by_cases hle : e - b ≤ max P.max_leaf_size 1
      · rw [if_pos hle]; rfl
      · rw [if_neg hle]
        rcases hpart : P.partition b e with ⟨op, P2⟩
        cases op with
        | none => simp only [hpart]; rfl
        | some p =>
            obtain ⟨hbp, hpe⟩ := partition_some_bounds P b e p P2 hpart
            simp only [hpart]
            have ihl := ih P2 b p (Nat.le_of_lt hbp)
            have ihr := ih (buildRange P2 b p n).2 p e (Nat.le_of_lt hpe)
            simp only [BTree.leafIndices, ihl, ihr]
            exact range'_glue b p e (Nat.le_of_lt hbp) (Nat.le_of_lt hpe)

theorem buildRange_leaf_sizes :
    ∀ (fuel : ℕ) (P : SAHPartitioner) (b e : ℕ), e - b ≤ fuel →
      ∀ f c, (f, c) ∈ ((buildRange P b e fuel).1).leafRecords →
        c ≤ P.max_leaf_size ∨ c ≤ 1 := by
  intro fuel
  induction fuel with
  | zero =>
      intro P b e hf f c hmem
      simp only [buildRange, BTree.leafRecords, List.mem_singleton, Prod.mk.injEq] at hmem
      omega
  | succ n ih =>
      intro P b e hf f c hmem
      rw [buildRange] at hmem
      by_cases hle : e - b ≤ max P.max_leaf_size 1
      · rw [if_pos hle] at hmem
        simp only [BTree.leafRecords, List.mem_singleton, Prod.mk.injEq] at hmem
        rcases le_max_iff.mp hle with hm | hm
        · left; omega
        · right; omega
      · rw [if_neg hle] at hmem
        rcases hpart : P.partition b e with ⟨op, P2⟩
        have hP2 : P2.max_leaf_size = P.max_leaf_size := by
          have hx := partition_snd_max_leaf_size P b e
          rw [hpart] at hx
          exact hx
        cases op with
        | none =>
            simp only [hpart, BTree.leafRecords, List.mem_singleton, Prod.mk.injEq] at hmem
            have hb2 : 2 ≤ e - b := by omega
            have := partition_none_bound P b e P2 hb2 hpart
            left; omega
        | some p =>
            obtain ⟨hbp, hpe⟩ := partition_some_bounds P b e p P2 hpart
            simp only [hpart, BTree.leafRecords, List.mem_append] at hmem
            rcases hmem with hm | hm
            · have := ih P2 b p (by omega) f c hm
              rw [hP2] at this
              exact this
            · have := ih (buildRange P2 b p n).2 p e (by omega) f c hm
              rw [buildRange_snd_max_leaf_size, hP2] at this
              exact this

/-- The structural bounding-box invariant of a hierarchy: every interior
node's box is exactly the union of its children's boxes. -/
def InteriorOK : BTree → Prop
  | .leaf _ _ _ => True
  | .interior bb l r => bb = AABB.union l.bbox r.bbox ∧ InteriorOK l ∧ InteriorOK r

theorem buildRange_interiorOK :
    ∀ (fuel : ℕ) (P : SAHPartitioner) (b e : ℕ), InteriorOK (buildRange P b e fuel).1 := by
  intro fuel
  induction fuel with
  | zero => intro P b e; trivial
  | succ n ih =>
      intro P b e
      rw [buildRange]
      by_cases hle : e - b ≤ max P.max_leaf_size 1
      · rw [if_pos hle]; trivial
      · rw [if_neg hle]
        rcases hpart : P.partition b e with ⟨op, P2⟩
        cases op with
        | none => simp only [hpart]; trivial
        | some p =>
            simp only [hpart]
            exact ⟨rfl, ih P2 b p, ih (buildRange P2 b p n).2 p e⟩

/-! ## Flat node array lemmas -/

theorem BTree.size_pos : ∀ t : BTree, 1 ≤ t.size := by
  intro t
  cases t <;> simp only [BTree.size] <;> omega

theorem flattenAux_length : ∀ (t : BTree) (s : ℕ), (flattenAux t s).length = t.size := by
  intro t
  induction t with
  | leaf bb f c => intro s; rfl
  | interior bb l r ihl ihr =>
      intro s
      simp only [flattenAux, List.length_cons, List.length_append, ihl, ihr, BTree.size]
      omega

theorem flattenAux_head : ∀ (t : BTree) (s : ℕ),
    ∃ n : Node, (flattenAux t s)[0]? = some n ∧ n.bbox = t.bbox := by
  intro t s
  cases t with
  | leaf bb f c => exact ⟨Node.leaf bb f c, rfl, rfl⟩
  | interior bb l r =>
      refine ⟨Node.interior bb (s + 1) (s + 1 + l.size), ?_, rfl⟩
      rw [flattenAux]
      exact List.getElem?_cons_zero

theorem nodesLeafIndices_append : ∀ (l1 l2 : List Node),
    nodesLeafIndices (l1 ++ l2) = nodesLeafIndices l1 ++ nodesLeafIndices l2 := by
  intro l1 l2
  induction l1 with
  | nil => rfl
  | cons n rest ih => simp [nodesLeafIndices, ih]

theorem nodesLeafIndices_flattenAux : ∀ (t : BTree) (s : ℕ),
    nodesLeafIndices (flattenAux t s) = t.leafIndices := by
  intro t
  induction t with
  | leaf bb f c =>
      intro s
      simp [flattenAux, nodesLeafIndices, Node.leafRange, BTree.leafIndices]
  | interior bb l r ihl ihr =>
      intro s
      simp only [flattenAux, nodesLeafIndices, nodesLeafIndices_append, Node.leafRange,
        BTree.leafIndices, ihl, ihr, List.nil_append]

theorem mem_flattenAux_leaf : ∀ (t : BTree) (s : ℕ) (bb : AABB) (f c : ℕ),
    Node.leaf bb f c ∈ flattenAux t s → (f, c) ∈ t.leafRecords := by
  intro t
  induction t with
  | leaf bb0 f0 c0 =>
      intro s bb f c h
      simp only [flattenAux, List.mem_singleton, Node.leaf.injEq] at h
      simp only [BTree.leafRecords, List.mem_singleton, Prod.mk.injEq]
      exact ⟨h.2.1, h.2.2⟩
  | interior bb0 l r ihl ihr =>
      intro s bb f c h
      simp only [flattenAux, List.mem_cons, List.mem_append] at h
      simp only [BTree.leafRecords, List.mem_append]
      rcases h with h | h | h
      · exact absurd h (by simp)
      · exact Or.inl (ihl _ bb f c h)
      · exact Or.inr (ihr _ bb f c h)

theorem flatten_children : ∀ (t : BTree), InteriorOK t →
    ∀ (s pos : ℕ) (bb : AABB) (li ri : ℕ),
      (flattenAux t s)[pos]? = some (Node.interior bb li ri) →
      s < li ∧ li < s + t.size ∧ s < ri ∧ ri < s + t.size ∧
      ∃ nl nr, (flattenAux t s)[li - s]? = some nl ∧ (flattenAux t s)[ri - s]? = some nr ∧
        bb = AABB.union nl.bbox nr.bbox := by
  intro t
  induction t with
  | leaf bb0 f0 c0 =>
      intro _ s pos bb li ri h
      rcases pos with _ | k
      · rw [flattenAux, List.getElem?_cons_zero] at h
        exact absurd h (by simp)
      · rw [flattenAux, List.getElem?_cons_succ] at h
        simp at h
  | interior bb0 l r ihl ihr =>
      intro hok s pos bb li ri h
      obtain ⟨hbb0, hokl, hokr⟩ := hok
      have hLl := flattenAux_length l (s + 1)
      have hLr := flattenAux_length r (s + 1 + l.size)
      have hlpos := BTree.size_pos l
      have hrpos := BTree.size_pos r
      simp only [flattenAux, BTree.size] at h ⊢
      rcases pos with _ | k
      · rw [List.getElem?_cons_zero] at h
        rw [Option.some.injEq, Node.interior.injEq] at h
        obtain ⟨hbbeq, hlieq, hrieq⟩ := h
        subst hlieq
        subst hrieq
        subst hbbeq
        obtain ⟨nl, hnl, hnlbb⟩ := flattenAux_head l (s + 1)
        obtain ⟨nr, hnr, hnrbb⟩ := flattenAux_head r (s + 1 + l.size)
        refine ⟨by omega, by omega, by omega, by omega, nl, nr, ?_, ?_, ?_⟩
        · rw [(show s + 1 - s = 0 + 1 by omega), List.getElem?_cons_succ,
            List.getElem?_append_left (by omega : 0 < (flattenAux l (s + 1)).length)]
          exact hnl
        · rw [(show s + 1 + l.size - s = l.size + 1 by omega), List.getElem?_cons_succ,
            List.getElem?_append_right (by omega : (flattenAux l (s + 1)).length ≤ l.size),
            (show l.size - (flattenAux l (s + 1)).length = 0 by omega)]
          exact hnr
        · rw [hbb0, hnlbb, hnrbb]
      · rw [List.getElem?_cons_succ] at h
        by_cases hk : k < (flattenAux l (s + 1)).length
        · rw [List.getElem?_append_left hk] at h
          obtain ⟨ha, hb, hc, hd, nl, nr, hnl, hnr, hbbu⟩ := ihl hokl (s + 1) k bb li ri h
          refine ⟨by omega, by omega, by omega, by omega, nl, nr, ?_, ?_, hbbu⟩
          · rw [(show li - s = (li - (s + 1)) + 1 by omega), List.getElem?_cons_succ,
              List.getElem?_append_left (by omega : li - (s + 1) < (flattenAux l (s + 1)).length)]
            exact hnl
          · rw [(show ri - s = (ri - (s + 1)) + 1 by omega), List.getElem?_cons_succ,
              List.getElem?_append_left (by omega : ri - (s + 1) < (flattenAux l (s + 1)).length)]
            exact hnr
        · push_neg at hk
          rw [List.getElem?_append_right hk] at h
          obtain ⟨ha, hb, hc, hd, nl, nr, hnl, hnr, hbbu⟩ :=
            ihr hokr (s + 1 + l.size) (k - (flattenAux l (s + 1)).length) bb li ri h
          refine ⟨by omega, by omega, by omega, by omega, nl, nr, ?_, ?_, hbbu⟩
          · rw [(show li - s = (li - s - 1) + 1 by omega), List.getElem?_cons_succ,
              List.getElem?_append_right (by omega : (flattenAux l (s + 1)).length ≤ li - s - 1),
              (show li - s - 1 - (flattenAux l (s + 1)).length = li - (s + 1 + l.size) by omega)]
            exact hnl
          · rw [(show ri - s = (ri - s - 1) + 1 by omega), List.getElem?_cons_succ,
              List.getElem?_append_right (by omega : (flattenAux l (s + 1)).length ≤ ri - s - 1),
              (show ri - s - 1 - (flattenAux l (s + 1)).length = ri - (s + 1 + l.size) by omega)]
            exact hnr

/-! ## Example inputs used by the witnesses -/

/-- A one-control-point curve at the origin, width zero. -/
def exampleCurveA : BezierCurve3 := ⟨[⟨0, 0, 0⟩], [0]⟩

/-- A one-control-point curve at (1,1,1), width zero. -/
def exampleCurveB : BezierCurve3 := ⟨[⟨1, 1, 1⟩], [0]⟩

/-- An assembly holding one curve object with a single curve. -/
def exampleAssemblyOne : Assembly :=
  ⟨[⟨⟨curveObjectModel, [exampleCurveA]⟩, idTransform⟩]⟩

/-- An assembly holding one curve object with two curves. -/
def exampleAssemblyTwo : Assembly :=
  ⟨[⟨⟨curveObjectModel, [exampleCurveA, exampleCurveB]⟩, idTransform⟩]⟩

/-- An assembly with no object instances at all. -/
def exampleAssemblyEmpty : Assembly := ⟨[]⟩

/-- Construction parameters leaving both options at their defaults. -/
def defaultBuildParams : BuildParams := ⟨none, none⟩

/-- The node array produced by `build_bvh` is the flattened hierarchy of the
top-level builder invocation, in both the empty and the non-empty case. -/
theorem build_bvh_nodes (params : BuildParams) (assembly : Assembly) (time : ℚ) :
    (CurveTree_build_bvh params assembly time).nodes =
      (buildRange
        (initSAHPartitioner ((collect_curves assembly).1.map BezierCurve3.get_bbox)
          CurveTreeDefaultMaxLeafSize CurveTreeDefaultInteriorNodeTraversalCost
          CurveTreeDefaultCurveIntersectionCost)
        0 (collect_curves assembly).1.length (collect_curves assembly).1.length).1.flatten := by
  simp only [CurveTree_build_bvh]
  split <;> rfl

/-! ## The claims -/

/-- Claim C1: for every non-empty set of N input primitives, after the tree
build completes, the leaf nodes' primitive index ranges partition the
interval [0, N) exactly: concatenating the leaf ranges of the node array in
traversal order yields precisely the indices 0, ..., N-1, so every index in
[0, N) belongs to exactly one leaf range, with no gaps and no overlaps. -/
theorem C1_leaf_ranges_partition (params : BuildParams) (assembly : Assembly) (time : ℚ)
    (hne : 0 < (collect_curves assembly).1.length) :
    nodesLeafIndices (CurveTree_build_bvh params assembly time).nodes =
      List.range (collect_curves assembly).1.length := by
  rw [build_bvh_nodes, BTree.flatten, nodesLeafIndices_flattenAux,
    buildRange_leafIndices _ _ 0 _ (Nat.zero_le _), List.range_eq_range', Nat.sub_zero]

/-- Witness for C1 at a concrete one-curve assembly. -/
theorem C1_witness :
    0 < (collect_curves exampleAssemblyOne).1.length ∧
    nodesLeafIndices (CurveTree_build_bvh defaultBuildParams exampleAssemblyOne 0).nodes =
      List.range (collect_curves exampleAssemblyOne).1.length :=
  ⟨by decide, C1_leaf_ranges_partition defaultBuildParams exampleAssemblyOne 0 (by decide)⟩

/-- Claim C2: every interior node of the built tree has a bounding box that
equals exactly the union of its two children's bounding boxes, union taken
as the componentwise minimum of the min corners and componentwise maximum
of the max corners; both child indices are valid array indices. -/
theorem C2_interior_bbox_union (params : BuildParams) (assembly : Assembly) (time : ℚ)
    (i : ℕ) (bb : AABB) (li ri : ℕ)
    (h : (CurveTree_build_bvh params assembly time).nodes[i]? = some (Node.interior bb li ri)) :
    li < (CurveTree_build_bvh params assembly time).nodes.length ∧
    ri < (CurveTree_build_bvh params assembly time).nodes.length ∧
    bb = AABB.union
      ((CurveTree_build_bvh params assembly time).nodes.getD li default).bbox
      ((CurveTree_build_bvh params assembly time).nodes.getD ri default).bbox := by
  rw [build_bvh_nodes, BTree.flatten] at h ⊢
  obtain ⟨h1, h2, h3, h4, nl, nr, hnl, hnr, hbb⟩ :=
    flatten_children _ (buildRange_interiorOK _ _ _ _) 0 i bb li ri h
  rw [Nat.sub_zero] at hnl hnr
  have hlen := flattenAux_length
    (buildRange
      (initSAHPartitioner ((collect_curves assembly).1.map BezierCurve3.get_bbox)
        CurveTreeDefaultMaxLeafSize CurveTreeDefaultInteriorNodeTraversalCost
        CurveTreeDefaultCurveIntersectionCost)
      0 (collect_curves assembly).1.length (collect_curves assembly).1.length).1 0
  refine ⟨by omega, by omega, ?_⟩
  rw [List.getD_eq_getElem?_getD, List.getD_eq_getElem?_getD, hnl, hnr]
  exact hbb

/-- Witness for C2 at a concrete two-curve assembly whose built tree has an
interior root with two leaf children. -/
theorem C2_witness :
    1 < (CurveTree_build_bvh defaultBuildParams exampleAssemblyTwo 0).nodes.length ∧
    2 < (CurveTree_build_bvh defaultBuildParams exampleAssemblyTwo 0).nodes.length ∧
    AABB.mk ⟨0, 0, 0⟩ ⟨2, 2, 2⟩ = AABB.union
      ((CurveTree_build_bvh defaultBuildParams exampleAssemblyTwo 0).nodes.getD 1 default).bbox
      ((CurveTree_build_bvh defaultBuildParams exampleAssemblyTwo 0).nodes.getD 2 default).bbox :=
  C2_interior_bbox_union defaultBuildParams exampleAssemblyTwo 0 0
    (AABB.mk ⟨0, 0, 0⟩ ⟨2, 2, 2⟩) 1 2 (by decide)

/-- Claim C3: whenever the selected algorithm string is not the implemented
plain BVH — an unrecognized name, or the recognized but unimplemented
variant such as "sbvh" — construction surfaces an error to the caller and
performs no partial mutation: the node, curve and key arrays stay empty;
in particular there is no silent fallback to another algorithm. -/
theorem C3_unsupported_algorithm_fails (s : String) (time : Option ℚ) (assembly : Assembly)
    (h : s ≠ "bvh") :
    (CurveTree_construct ⟨some s, time⟩ assembly).2.isSome = true ∧
    (CurveTree_construct ⟨some s, time⟩ assembly).1 = emptyCurveTreeState := by
  by_cases hm : s ∈ (["bvh", "sbvh"] : List String)
  · have hge : get_optional_enum (some s) ("bvh") ["bvh", "sbvh"] = Except.ok s := by
      simp only [get_optional_enum]
      rw [if_pos hm]
    simp [CurveTree_construct, hge, h]
  · have hge : get_optional_enum (some s) ("bvh") ["bvh", "sbvh"] = Except.error () := by
      simp only [get_optional_enum]
      rw [if_neg hm]
    simp [CurveTree_construct, hge]

/-- Witness for C3 at the recognized but unimplemented algorithm name. -/
theorem C3_witness :
    ("sbvh" : String) ≠ "bvh" ∧
    ((CurveTree_construct ⟨some ("sbvh"), none⟩ exampleAssemblyEmpty).2.isSome = true ∧
     (CurveTree_construct ⟨some ("sbvh"), none⟩ exampleAssemblyEmpty).1 = emptyCurveTreeState) :=
  ⟨by decide, C3_unsupported_algorithm_fails ("sbvh") none exampleAssemblyEmpty (by decide)⟩

/-- Claim C4: the build is deterministic: for identical input bounding
boxes (and identical build constants), two runs produce the identical node
hierarchy — hence identical splits — and the identical final item
ordering. -/
theorem C4_build_deterministic (bbs1 bbs2 : List AABB) (mls : ℕ) (tc ic : ℤ)
    (b e fuel : ℕ) (h : bbs1 = bbs2) :
    (buildRange (initSAHPartitioner bbs1 mls tc ic) b e fuel).1 =
      (buildRange (initSAHPartitioner bbs2 mls tc ic) b e fuel).1 ∧
    (buildRange (initSAHPartitioner bbs1 mls tc ic) b e fuel).2.ordering =
      (buildRange (initSAHPartitioner bbs2 mls tc ic) b e fuel).2.ordering := by
  subst h
  exact ⟨rfl, rfl⟩

/-- Witness for C4 at a concrete one-box input. -/
theorem C4_witness :
    (buildRange (initSAHPartitioner [AABB.mk ⟨0, 0, 0⟩ ⟨2, 2, 2⟩] 1 1 1) 0 1 1).1 =
      (buildRange (initSAHPartitioner [AABB.mk ⟨0, 0, 0⟩ ⟨2, 2, 2⟩] 1 1 1) 0 1 1).1 ∧
    (buildRange (initSAHPartitioner [AABB.mk ⟨0, 0, 0⟩ ⟨2, 2, 2⟩] 1 1 1) 0 1 1).2.ordering =
      (buildRange (initSAHPartitioner [AABB.mk ⟨0, 0, 0⟩ ⟨2, 2, 2⟩] 1 1 1) 0 1 1).2.ordering :=
  C4_build_deterministic [AABB.mk ⟨0, 0, 0⟩ ⟨2, 2, 2⟩] [AABB.mk ⟨0, 0, 0⟩ ⟨2, 2, 2⟩]
    1 1 1 0 1 1 rfl

/-- Claim C5: the reorder step preserves the primitive/key pairing: when
the two parallel arrays are permuted with the identical ordering, the item
and the key that end up at final position p both originate from the same
original index, namely order[p]. -/
theorem C5_reorder_preserves_pairing {α β : Type} [Inhabited α] [Inhabited β]
    (items : List α) (keys : List β) (order : List ℕ) (p i : ℕ)
    (hp : order[p]? = some i) (hi : i < items.length) (hk : i < keys.length) :
    (small_item_reorder items order)[p]? = items[i]? ∧
    (small_item_reorder keys order)[p]? = keys[i]? := by
  unfold small_item_reorder
  constructor
  · rw [List.getElem?_map, hp, Option.map_some', getElem?_eq_some_getD items i default hi]
  · rw [List.getElem?_map, hp, Option.map_some', getElem?_eq_some_getD keys i default hk]

/-- Witness for C5 at concrete parallel arrays and a concrete permutation. -/
theorem C5_witness :
    ([1, 0] : List ℕ)[0]? = some 1 ∧ 1 < ([10, 20] : List ℕ).length ∧
    1 < ([5, 6] : List ℕ).length ∧
    ((small_item_reorder ([10, 20] : List ℕ) [1, 0])[0]? = ([10, 20] : List ℕ)[1]? ∧
     (small_item_reorder ([5, 6] : List ℕ) [1, 0])[0]? = ([5, 6] : List ℕ)[1]?) :=
  ⟨by decide, by decide, by decide,
    C5_reorder_preserves_pairing [10, 20] [5, 6] [1, 0] 0 1 (by decide) (by decide) (by decide)⟩

/-- Claim C6: the geometry collector processes only object instances whose
object's model tag identifies a curve object, skipping every other object
type without error; for every curve within a qualifying object it emits
exactly one primitive and one key, preserving iteration order (instance
index first, then curve index) — it agrees exactly with the
order-preserving filtered comprehension — and the two output sequences
always have equal length. -/
theorem C6_collector_matches_spec (assembly : Assembly) :
    collect_curves assembly = collect_curves_spec assembly ∧
    (collect_curves assembly).1.length = (collect_curves assembly).2.length := by
  constructor
  · unfold collect_curves collect_curves_spec
    exact collect_go_eq_spec _
  · unfold collect_curves
    exact collect_go_lengths _

/-- Claim C7: after the build, no leaf node of the tree contains more
primitives than the configured maximum leaf size, except possibly a single
primitive per leaf (the case covering a configured maximum smaller than
one). -/
theorem C7_leaf_size_bound (params : BuildParams) (assembly : Assembly) (time : ℚ)
    (n : Node) (bb : AABB) (f c : ℕ)
    (hn : n ∈ (CurveTree_build_bvh params assembly time).nodes)
    (hleaf : n = Node.leaf bb f c) :
    c ≤ CurveTreeDefaultMaxLeafSize ∨ c ≤ 1 := by
  subst hleaf
  rw [build_bvh_nodes, BTree.flatten] at hn
  have hrec := mem_flattenAux_leaf _ 0 bb f c hn
  have hsz := buildRange_leaf_sizes (collect_curves assembly).1.length
    (initSAHPartitioner ((collect_curves assembly).1.map BezierCurve3.get_bbox)
      CurveTreeDefaultMaxLeafSize CurveTreeDefaultInteriorNodeTraversalCost
      CurveTreeDefaultCurveIntersectionCost)
    0 (collect_curves assembly).1.length (by omega) f c hrec
  simpa only [initSAHPartitioner] using hsz

/-- Witness for C7 at a concrete two-curve assembly and one of its leaf
nodes. -/
theorem C7_witness :
    Node.leaf (AABB.mk ⟨2, 2, 2⟩ ⟨2, 2, 2⟩) 1 1 ∈
      (CurveTree_build_bvh defaultBuildParams exampleAssemblyTwo 0).nodes ∧
    (1 ≤ CurveTreeDefaultMaxLeafSize ∨ 1 ≤ 1) :=
  ⟨by decide,
    C7_leaf_size_bound defaultBuildParams exampleAssemblyTwo 0
      (Node.leaf (AABB.mk ⟨2, 2, 2⟩ ⟨2, 2, 2⟩) 1 1) (AABB.mk ⟨2, 2, 2⟩ ⟨2, 2, 2⟩) 1 1
      (by decide) rfl⟩

/-- Claim C8: for empty input (zero collected primitives), the build
succeeds without error and the tree's node array consists of a single
empty leaf root; the curve and key arrays are empty as well. -/
theorem C8_empty_input (params : BuildParams) (assembly : Assembly)
    (halg : params.algorithm = none)
    (hempty : (collect_curves assembly).1 = []) :
    CurveTree_construct params assembly =
      (CurveTreeState.mk [Node.leaf AABB.emptyBox 0 0] [] [], none) := by
  have hkeys : (collect_curves assembly).2 = [] := by
    have hlen := collect_go_lengths assembly.object_instances.enum
    unfold collect_curves at hempty ⊢
    rw [hempty] at hlen
    exact List.length_eq_zero.mp hlen.symm
  obtain ⟨palg, ptime⟩ := params
  simp only at halg
  subst halg
  simp only [CurveTree_construct, get_optional_enum]
  rw [if_true]
  rw [Prod.mk.injEq]
  refine ⟨?_, rfl⟩
  simp only [CurveTree_build_bvh]
  rw [hempty, hkeys]
  rfl

/-- Witness for C8 at an assembly with no object instances. -/
theorem C8_witness :
    defaultBuildParams.algorithm = none ∧
    (collect_curves exampleAssemblyEmpty).1 = [] ∧
    CurveTree_construct defaultBuildParams exampleAssemblyEmpty =
      (CurveTreeState.mk [Node.leaf AABB.emptyBox 0 0] [] [], none) :=
  ⟨rfl, rfl, C8_empty_input defaultBuildParams exampleAssemblyEmpty rfl rfl⟩

/-- Claim C9: every curve key emitted by the geometry collector carries
material index zero, for every input assembly and every curve (the
documented single-material simplification). -/
theorem C9_material_index_zero (assembly : Assembly) (k : CurveKey)
    (hk : k ∈ (collect_curves assembly).2) : k.material_index = 0 :=
  collect_go_material assembly.object_instances.enum k hk

/-- Witness for C9 at a concrete one-curve assembly. -/
theorem C9_witness :
    CurveKey.mk 0 0 0 ∈ (collect_curves exampleAssemblyOne).2 ∧
    (CurveKey.mk 0 0 0).material_index = 0 :=
  ⟨by decide, C9_material_index_zero exampleAssemblyOne (CurveKey.mk 0 0 0) (by decide)⟩

/-- Claim C10: the "time" configuration parameter (read with default one
half) has no effect on the constructed tree: two constructions identical
except for the time value produce identical node, curve and key arrays,
and the identical error outcome. -/
theorem C10_time_no_effect (alg : Option String) (t1 t2 : Option ℚ) (assembly : Assembly) :
    CurveTree_construct ⟨alg, t1⟩ assembly = CurveTree_construct ⟨alg, t2⟩ assembly := by
  simp only [CurveTree_construct]
  cases h : get_optional_enum alg ("bvh") ["bvh", "sbvh"] with
  | error e => rfl
  | ok s =>
      dsimp only
      by_cases hs : s = "bvh"
      · rw [if_pos hs, if_pos hs, Prod.mk.injEq]
        refine ⟨?_, rfl⟩
        simp only [CurveTree_build_bvh]
      · rw [if_neg hs, if_neg hs]
